import Mathlib

/-!
Verification of the two helper functions in
`lib/agent-core/docker-swarm/src/utils.py` of the
`sample-agentic-chatbot-accelerator` repository:

* `extract_tag_content(llm_response, tag)` — extracts the last non-empty
  substring enclosed by `<tag>...</tag>`, synthesizing missing markers at the
  string boundaries, via `re.findall(f"<{tag}>(.*?)</{tag}>", ..., re.DOTALL)`.
* `deserialize(value, object_type)` — parses a JSON string into a validated
  object via pydantic's `model_validate_json`, logging and re-raising
  `ValidationError` on failure.

Strings are modelled as `List Char`.  The non-greedy, non-overlapping
left-to-right scan of `re.findall` for a pattern of the shape
`LITOPEN(.*?)LITCLOSE` is modelled directly: repeatedly find the first
occurrence of the opening marker, then the first occurrence of the closing
marker after it, capture the text in between, and continue after the closing
marker.  This is faithful for tag names containing no pattern-special
characters (the only case the specification covers).
-/

namespace AgentUtils

/-- `containsSub hay pat` models Python's substring test `pat in hay`. -/
def containsSub (hay pat : List Char) : Bool :=
  match hay with
  | [] => decide (pat = [])
  | _ :: t => pat.isPrefixOf hay || containsSub t pat

/-- `splitFirst pat s` finds the first occurrence of `pat` in `s` and returns
the text before it and the text after it, or `none` when `pat` does not occur.
This models the scanning step of `re.findall` for a literal sub-pattern. -/
def splitFirst (pat : List Char) : List Char → Option (List Char × List Char)
  | [] => if pat = [] then some ([], []) else none
  | c :: rest =>
    if pat.isPrefixOf (c :: rest) then some ([], (c :: rest).drop pat.length)
    else
      match splitFirst pat rest with
      | some (pre, post) => some (c :: pre, post)
      | none => none

/-- The opening marker `f"<{tag}>"`. -/
def openTag (tag : List Char) : List Char := '<' :: (tag ++ ['>'])

/-- The closing marker `f"</{tag}>"`. -/
def closeTag (tag : List Char) : List Char := '<' :: '/' :: (tag ++ ['>'])

/-- Fueled worker for `re.findall(f"<{tag}>(.*?)</{tag}>", s, re.DOTALL)`:
find the first opening marker, then the first closing marker after it, capture
the (possibly empty) text between them, and continue after the closing marker.
The fuel only forces termination; `findMatches` supplies enough of it. -/
def findAllGo (opn cls : List Char) : Nat → List Char → List (List Char)
  | 0, _ => []
  | fuel + 1, s =>
    match splitFirst opn s with
    | none => []
    | some (_, rest) =>
      match splitFirst cls rest with
      | none => []
      | some (content, rest2) => content :: findAllGo opn cls fuel rest2

/-- `re.findall(f"<{tag}>(.*?)</{tag}>", s, re.DOTALL)`: the list of captured
groups, in order of occurrence. -/
def findMatches (tag s : List Char) : List (List Char) :=
  findAllGo (openTag tag) (closeTag tag) (s.length + 1) s

/-- A character allowed in a tag name: tag names are identifiers, free of the
marker characters `<`, `/`, `>` and of pattern-special characters. -/
def nameChar (c : Char) : Bool := c.isAlphanum || c == '_' || c == '-'

/-- `tag` is a non-empty name with no pattern-special characters. -/
def isTagName (tag : List Char) : Bool := !tag.isEmpty && tag.all nameChar

/-- The marker-synthesis preamble of `extract_tag_content`: prepend the
opening marker when absent, then append the closing marker when absent from
the (possibly already extended) text. -/
def synthesize (llm_response tag : List Char) : List Char :=
  let s1 :=
    if containsSub llm_response (openTag tag) then llm_response
    else openTag tag ++ llm_response
  if containsSub s1 (closeTag tag) then s1 else s1 ++ closeTag tag

/-- `extract_tag_content(llm_response, tag)`: synthesize missing markers, find
all matches, drop the empty ones (Python truthiness filter), and return the
last survivor (`matches[-1] if matches else None`). -/
def extract_tag_content (llm_response tag : List Char) : Option (List Char) :=
  ((findMatches tag (synthesize llm_response tag)).filter
      (fun m => !m.isEmpty)).getLast?

-- sanity checks against the Python doctest and the spec's examples
example : extract_tag_content "<foo>bar</foo>".toList "foo".toList =
    some "bar".toList := by decide
example : extract_tag_content "no tags here".toList "foo".toList =
    some "no tags here".toList := by decide
example : extract_tag_content "<foo>first</foo><foo>second</foo>".toList
    "foo".toList = some "second".toList := by decide
example : extract_tag_content "<foo></foo>".toList "foo".toList = none := by
  decide
example : extract_tag_content "<foo>only-open".toList "foo".toList =
    some "only-open".toList := by decide
example : extract_tag_content "<foo>a</foo><foo>b".toList "foo".toList =
    some "a".toList := by decide
example : extract_tag_content "x</foo>y".toList "foo".toList =
    some "x".toList := by decide

/-!
### The deserializer

The source delegates parsing and validation to pydantic's
`model_validate_json`, which is third-party code not present in the
repository fragment.  Modelled from the spec: a JSON value, a minimal JSON
parser, and a schema validator ("validate untyped JSON against a statically
describable schema and either construct a typed value or fail with a
`ValidationError`").  The repository's own contribution — the
`try/except ValidationError: print(...); raise` wrapper — is embedded
exactly. -/

/-- A JSON value, the shape of data `model_validate_json` operates on. -/
inductive Json : Type where
  | null : Json
  | bool (b : Bool) : Json
  | num (n : Int) : Json
  | str (s : List Char) : Json
  | arr (elems : List Json) : Json
  | obj (fields : List (List Char × Json)) : Json

/-- Drop leading JSON whitespace. -/
def skipWs : List Char → List Char
  | [] => []
  | c :: rest =>
    if c = ' ' ∨ c = '\n' ∨ c = '\t' ∨ c = '\r' then skipWs rest else c :: rest

/-- Read a string body up to the closing quote (escapes not modelled). -/
def parseStringBody : List Char → Option (List Char × List Char)
  | [] => none
  | c :: rest =>
    if c = '"' then some ([], rest)
    else (parseStringBody rest).map (fun pr => (c :: pr.1, pr.2))

/-- Split off a leading run of decimal digits. -/
def takeDigits : List Char → (List Char × List Char)
  | [] => ([], [])
  | c :: rest =>
    if c.isDigit then
      let pr := takeDigits rest
      (c :: pr.1, pr.2)
    else ([], c :: rest)

/-- Numeric value of a digit string, most significant first. -/
def digitsToNat : List Char → Nat → Nat
  | [], acc => acc
  | c :: rest, acc => digitsToNat rest (acc * 10 + (c.toNat - '0'.toNat))

/-- Parse an integer literal (optional leading minus, then digits). -/
def parseNumber (s : List Char) : Option (Int × List Char) :=
  match s with
  | '-' :: rest =>
    match takeDigits rest with
    | ([], _) => none
    | (ds, r) => some (-(digitsToNat ds 0 : Int), r)
  | _ =>
    match takeDigits s with
    | ([], _) => none
    | (ds, r) => some ((digitsToNat ds 0 : Int), r)

mutual

/-- Modelled from the spec: parse one JSON value, returning the remainder of
the input.  The fuel only forces termination; `parseJson` supplies plenty. -/
def parseValue : Nat → List Char → Option (Json × List Char)
  | 0, _ => none
  | fuel + 1, s =>
    match skipWs s with
    | 'n' :: 'u' :: 'l' :: 'l' :: rest => some (.null, rest)
    | 't' :: 'r' :: 'u' :: 'e' :: rest => some (.bool true, rest)
    | 'f' :: 'a' :: 'l' :: 's' :: 'e' :: rest => some (.bool false, rest)
    | '"' :: rest => (parseStringBody rest).map (fun pr => (.str pr.1, pr.2))
    | '[' :: rest =>
      match skipWs rest with
      | ']' :: rest2 => some (.arr [], rest2)
      | _ => (parseElems fuel rest).map (fun pr => (.arr pr.1, pr.2))
    | '{' :: rest =>
      match skipWs rest with
      | '}' :: rest2 => some (.obj [], rest2)
      | _ => (parseFields fuel rest).map (fun pr => (.obj pr.1, pr.2))
    | s1 => (parseNumber s1).map (fun pr => (.num pr.1, pr.2))

/-- Parse a non-empty comma-separated list of array elements, consuming the
closing bracket. -/
def parseElems : Nat → List Char → Option (List Json × List Char)
  | 0, _ => none
  | fuel + 1, s =>
    match parseValue fuel s with
    | none => none
    | some (v, rest) =>
      match skipWs rest with
      | ',' :: rest2 =>
        match parseElems fuel rest2 with
        | none => none
        | some (vs, rest3) => some (v :: vs, rest3)
      | ']' :: rest2 => some ([v], rest2)
      | _ => none

/-- Parse a non-empty comma-separated list of object members, consuming the
closing brace. -/
def parseFields : Nat → List Char → Option (List (List Char × Json) × List Char)
  | 0, _ => none
  | fuel + 1, s =>
    match skipWs s with
    | '"' :: rest =>
      match parseStringBody rest with
      | none => none
      | some (key, rest2) =>
        match skipWs rest2 with
        | ':' :: rest3 =>
          match parseValue fuel rest3 with
          | none => none
          | some (v, rest4) =>
            match skipWs rest4 with
            | ',' :: rest5 =>
              match parseFields fuel rest5 with
              | none => none
              | some (kvs, rest6) => some ((key, v) :: kvs, rest6)
            | '}' :: rest5 => some ([(key, v)], rest5)
            | _ => none
        | _ => none
    | _ => none

end

/-- Modelled from the spec: `value` "is a string expected to contain a JSON
document"; this returns that document, or `none` when `value` is not valid
JSON. -/
def parseJson (value : List Char) : Option Json :=
  match parseValue (value.length + 1) value with
  | some (j, rest) => if skipWs rest = [] then some j else none
  | none => none

mutual

/-- Modelled from the spec: a schema — "a description of expected fields,
types, and nesting used to validate and construct a structured object from
raw JSON". -/
inductive JSchema : Type where
  | int : JSchema
  | str : JSchema
  | bool : JSchema
  | null : JSchema
  | obj (fields : JFields) : JSchema

/-- The field descriptions of an object schema: name, field schema, and
whether the field is required. -/
inductive JFields : Type where
  | nil : JFields
  | cons (name : List Char) (fieldSchema : JSchema) (required : Bool)
      (rest : JFields) : JFields

end

/-- Look a field up by name in a parsed JSON object. -/
def lookupField (name : List Char) : List (List Char × Json) → Option Json
  | [] => none
  | (k, v) :: rest => if k = name then some v else lookupField name rest

mutual

/-- Modelled from the spec: validate a JSON value against a schema —
"required fields present, types conform, nested objects recursively
validated".  Fueled for termination; `validate` supplies enough fuel. -/
def validateGo : Nat → JSchema → Json → Bool
  | 0, _, _ => false
  | _ + 1, .int, .num _ => true
  | _ + 1, .str, .str _ => true
  | _ + 1, .bool, .bool _ => true
  | _ + 1, .null, .null => true
  | fuel + 1, .obj fs, .obj kvs => validateFieldsGo fuel fs kvs
  | _ + 1, _, _ => false

/-- Validate each described field of an object: a present field must validate
against its field schema, an absent field must not be required. -/
def validateFieldsGo : Nat → JFields → List (List Char × Json) → Bool
  | 0, _, _ => false
  | _ + 1, .nil, _ => true
  | fuel + 1, .cons name fieldSchema required rest, kvs =>
    (match lookupField name kvs with
     | some v => validateGo fuel fieldSchema v
     | none => !required) && validateFieldsGo fuel rest kvs

end

mutual

/-- Structural size of a schema, used as validation fuel: every recursive
call of `validateGo`/`validateFieldsGo` descends into the schema. -/
def schemaSize : JSchema → Nat
  | .int => 1
  | .str => 1
  | .bool => 1
  | .null => 1
  | .obj fs => fieldsSize fs + 1

/-- Structural size of an object schema's field list. -/
def fieldsSize : JFields → Nat
  | .nil => 1
  | .cons _ fieldSchema _ rest => schemaSize fieldSchema + fieldsSize rest + 1

end

/-- Whether JSON value `j` conforms to `schema`. -/
def validate (schema : JSchema) (j : Json) : Bool :=
  validateGo (schemaSize schema) schema j

/-- The single error kind of the deserializer: pydantic's
`ValidationError`, carrying a message describing the failure. -/
structure ValidationError : Type where
  msg : List Char

/-- Modelled from the spec: pydantic's `object_type.model_validate_json` —
parse the text as JSON and validate it against the schema, failing with a
`ValidationError` on malformed JSON or schema mismatch. -/
def model_validate_json (schema : JSchema) (value : List Char) :
    Except ValidationError Json :=
  match parseJson value with
  | none => .error ⟨"value is not valid JSON".toList⟩
  | some j =>
    if validate schema j then .ok j
    else .error ⟨"JSON does not conform to the schema".toList⟩

/-- The diagnostic line `print(f"Validation error: {err}")` writes. -/
def validationMsg (err : ValidationError) : List Char :=
  "Validation error: ".toList ++ err.msg

/-- `deserialize(value, object_type)`: call `model_validate_json`; on
`ValidationError`, print a diagnostic naming the error and re-raise that very
error; otherwise return the parsed object.  The second component collects the
lines printed during the call. -/
def deserialize {α : Type} (value : List Char)
    (object_type : List Char → Except ValidationError α) :
    Except ValidationError α × List (List Char) :=
  match object_type value with
  | .error err => (.error err, [validationMsg err])
  | .ok parsed_object => (.ok parsed_object, [])

/-- Two successive runs of `extract_tag_content` on the same input, both
outputs observed. -/
def extractTwice (text tag : List Char) :
    Option (List Char) × Option (List Char) :=
  (extract_tag_content text tag, extract_tag_content text tag)

/-- Two successive runs of `deserialize` on the same input; the print log
threads through both runs, and both results are observed. -/
def deserializeTwice {α : Type} (value : List Char)
    (object_type : List Char → Except ValidationError α) :
    (Except ValidationError α × Except ValidationError α) × List (List Char) :=
  let r1 := deserialize value object_type
  let r2 := deserialize value object_type
  ((r1.1, r2.1), r1.2 ++ r2.2)

/-- The input `'not json'` of the spec's testable property 2. -/
def notJsonInput : List Char := "not json".toList

/-- The input `'{}'` of the spec's testable property 3. -/
def emptyObjInput : List Char := ['{', '}']

/-- The input `'{"a": 1}'` of the spec's testable property 1. -/
def intFieldInput : List Char := ['{', '"', 'a', '"', ':', ' ', '1', '}']

/-- A schema with a single required integer field `a` (the spec's
`SchemaRequiring "a"` / `SchemaWithIntField "a"`). -/
def schemaRequiringA : JSchema := .obj (.cons ['a'] .int true .nil)

-- sanity checks against the spec's testable properties 1–3
example : parseJson notJsonInput = none := rfl
example : parseJson emptyObjInput = some (.obj []) := rfl
example : parseJson intFieldInput = some (.obj [(['a'], .num 1)]) := rfl
example : validate schemaRequiringA (.obj []) = false := rfl
example : validate schemaRequiringA (.obj [(['a'], .num 1)]) = true := rfl

/-!
### Lemmas about the substring-search primitives
-/

theorem isPrefixOf_eq_true_iff {p s : List Char} :
    p.isPrefixOf s = true ↔ ∃ t, s = p ++ t := by
  induction p generalizing s with
  | nil => simp [List.isPrefixOf]
  | cons a as ih =>
    cases s with
    | nil => simp [List.isPrefixOf]
    | cons b bs =>
      simp only [List.isPrefixOf, Bool.and_eq_true, beq_iff_eq, ih,
        List.cons_append, List.cons.injEq]
      constructor
      · rintro ⟨rfl, t, rfl⟩; exact ⟨t, rfl, rfl⟩
      · rintro ⟨t, rfl, rfl⟩; exact ⟨rfl, t, rfl⟩

theorem containsSub_iff {s pat : List Char} :
    containsSub s pat = true ↔ ∃ a b, s = a ++ pat ++ b := by
  induction s with
  | nil =>
    simp only [containsSub, decide_eq_true_eq]
    constructor
    · rintro rfl; exact ⟨[], [], rfl⟩
    · rintro ⟨a, b, h⟩
      rcases List.append_eq_nil.mp h.symm with ⟨h1, h2⟩
      rcases List.append_eq_nil.mp h1 with ⟨-, h3⟩
      exact h3
  | cons c t ih =>
    simp only [containsSub, Bool.or_eq_true, isPrefixOf_eq_true_iff, ih]
    constructor
    · rintro (⟨w, hw⟩ | ⟨a, b, hab⟩)
      · exact ⟨[], w, by simpa using hw⟩
      · exact ⟨c :: a, b, by simp [hab]⟩
    · rintro ⟨a, b, hab⟩
      cases a with
      | nil => exact Or.inl ⟨b, by simpa using hab⟩
      | cons x a' =>
        simp only [List.cons_append, List.cons.injEq] at hab
        exact Or.inr ⟨a', b, hab.2⟩

theorem containsSub_of_eq {s a pat b : List Char} (h : s = a ++ pat ++ b) :
    containsSub s pat = true :=
  containsSub_iff.mpr ⟨a, b, h⟩

theorem containsSub_append_left {x y pat : List Char}
    (h : containsSub y pat = true) : containsSub (x ++ y) pat = true := by
  rcases containsSub_iff.mp h with ⟨a, b, rfl⟩
  exact containsSub_of_eq (show _ = (x ++ a) ++ pat ++ b by simp)

theorem containsSub_append_right {x y pat : List Char}
    (h : containsSub x pat = true) : containsSub (x ++ y) pat = true := by
  rcases containsSub_iff.mp h with ⟨a, b, rfl⟩
  exact containsSub_of_eq (show _ = a ++ pat ++ (b ++ y) by simp)

theorem splitFirst_eq_append {pat s pre post : List Char}
    (h : splitFirst pat s = some (pre, post)) : s = pre ++ pat ++ post := by
  induction s generalizing pre with
  | nil =>
    by_cases hp : pat = ([] : List Char) <;>
      simp [splitFirst, hp] at h
    obtain ⟨rfl, rfl⟩ := h
    simp [hp]
  | cons c rest ih =>
    by_cases hpre : pat.isPrefixOf (c :: rest) = true
    · rcases isPrefixOf_eq_true_iff.mp hpre with ⟨t, ht⟩
      rw [splitFirst, if_pos hpre] at h
      rw [ht, List.drop_left] at h
      obtain ⟨rfl, rfl⟩ := Prod.mk.injEq .. ▸ (Option.some.injEq .. ▸ h)
      simpa using ht
    · rw [splitFirst, if_neg hpre] at h
      cases hrec : splitFirst pat rest with
      | none => rw [hrec] at h; exact absurd h (by simp)
      | some pr =>
        obtain ⟨pre', post'⟩ := pr
        rw [hrec] at h
        simp only [Option.some.injEq, Prod.mk.injEq] at h
        obtain ⟨rfl, rfl⟩ := h
        simp [ih hrec]

theorem splitFirst_eq_none {pat s : List Char}
    (h : containsSub s pat = false) : splitFirst pat s = none := by
  cases hs : splitFirst pat s with
  | none => rfl
  | some pr =>
    obtain ⟨pre, post⟩ := pr
    have := containsSub_of_eq (splitFirst_eq_append hs)
    rw [this] at h
    exact absurd h (by simp)

theorem splitFirst_append_self {pat t : List Char} :
    splitFirst pat (pat ++ t) = some ([], t) := by
  cases pat with
  | nil =>
    cases t with
    | nil => simp [splitFirst]
    | cons c rest => simp [splitFirst, List.isPrefixOf]
  | cons a as =>
    have hpre : (a :: as).isPrefixOf ((a :: as) ++ t) = true :=
      isPrefixOf_eq_true_iff.mpr ⟨t, rfl⟩
    rw [List.cons_append, splitFirst, if_pos (by simp_all)]
    rw [show (a :: (as ++ t)) = (a :: as) ++ t from rfl, List.drop_left]

/-- When no occurrence of `pat` starts strictly inside `a`, the first
occurrence of `pat` in `a ++ pat ++ b` is the explicit one. -/
theorem splitFirst_append_first {pat a b : List Char}
    (h : ∀ a₁ a₂, a = a₁ ++ a₂ → a₂ ≠ [] →
      pat.isPrefixOf (a₂ ++ pat ++ b) = false) :
    splitFirst pat (a ++ pat ++ b) = some (a, b) := by
  induction a with
  | nil => simpa using splitFirst_append_self
  | cons x a' ih =>
    have hx : pat.isPrefixOf (x :: (a' ++ (pat ++ b))) = false := by
      have hx0 := h [] (x :: a') rfl (by simp)
      simpa only [List.cons_append, List.append_assoc] using hx0
    rw [List.append_assoc, List.cons_append, splitFirst,
      if_neg (by rw [hx]; simp)]
    have ih' := ih (fun a₁ a₂ hsplit hne => h (x :: a₁) a₂ (by simp [hsplit]) hne)
    rw [List.append_assoc] at ih'
    rw [ih']

/-- A pattern whose head character occurs nowhere else in it cannot start
strictly inside `a` and still match across into the explicit occurrence:
such a prefix match forces a full occurrence of `pat` inside `a`. -/
theorem not_isPrefixOf_of_uniqueHead {c : Char} {p a₁ a₂ b : List Char}
    (hc : c ∉ p) (ha : containsSub (a₁ ++ a₂) (c :: p) = false) (hne : a₂ ≠ [])
    (hpre : (c :: p).isPrefixOf (a₂ ++ (c :: p) ++ b) = true) : False := by
  rcases isPrefixOf_eq_true_iff.mp hpre with ⟨w, hw⟩
  rw [List.append_assoc] at hw
  rcases List.append_eq_append_iff.mp hw with ⟨a', ha', hw'⟩ | ⟨c', hc', -⟩
  · -- `a₂` is a prefix of the pattern
    cases a₂ with
    | nil => exact hne rfl
    | cons x a₂' =>
      rw [List.cons_append] at ha'
      obtain ⟨rfl, hp⟩ := List.cons.inj ha'
      cases a' with
      | nil =>
        -- the pattern equals `a₂`, so it occurs inside `a₁ ++ a₂`
        rw [List.append_nil] at hp
        have hocc : containsSub (a₁ ++ (c :: a₂')) (c :: p) = true :=
          containsSub_of_eq (show _ = a₁ ++ (c :: p) ++ [] by simp [hp])
        simp [hocc] at ha
      | cons d a'' =>
        -- the pattern overlaps itself with a non-trivial shift
        rw [List.cons_append, List.cons_append] at hw'
        obtain ⟨rfl, -⟩ := List.cons.inj hw'
        exact hc (hp.symm ▸ List.mem_append_right a₂' (List.mem_cons_self c a''))
  · -- the pattern is a prefix of `a₂`, hence occurs inside `a₁ ++ a₂`
    have hocc : containsSub (a₁ ++ a₂) (c :: p) = true :=
      containsSub_of_eq (show _ = a₁ ++ (c :: p) ++ c' by simp [hc'])
    simp [hocc] at ha

/-- First-occurrence computation for a pattern with a unique head character:
if `pat` does not occur in `a`, the first occurrence of `pat` in
`a ++ pat ++ b` is the explicit one. -/
theorem splitFirst_clean {c : Char} {p a b : List Char}
    (hc : c ∉ p) (ha : containsSub a (c :: p) = false) :
    splitFirst (c :: p) (a ++ (c :: p) ++ b) = some (a, b) := by
  apply splitFirst_append_first
  intro a₁ a₂ hsplit hne
  by_contra hpre
  rw [Bool.not_eq_false] at hpre
  exact not_isPrefixOf_of_uniqueHead hc (hsplit ▸ ha) hne hpre

/-- An occurrence of `pat` in `x ++ y` lies within `y`, or starts inside `x`
(at some non-empty suffix `x₂` of `x`). -/
theorem containsSub_append_split {x y pat : List Char}
    (h : containsSub (x ++ y) pat = true) :
    containsSub y pat = true ∨
      ∃ x₁ x₂, x = x₁ ++ x₂ ∧ x₂ ≠ [] ∧
        pat.isPrefixOf (x₂ ++ y) = true := by
  induction x with
  | nil => exact Or.inl (by simpa using h)
  | cons d x' ih =>
    rw [List.cons_append, containsSub, Bool.or_eq_true] at h
    rcases h with hpre | htail
    · exact Or.inr ⟨[], d :: x', by simp, by simp, by simpa using hpre⟩
    · rcases ih htail with hy | ⟨x₁, x₂, hx, hne, hpre⟩
      · exact Or.inl hy
      · exact Or.inr ⟨d :: x₁, x₂, by simp [hx], hne, hpre⟩

/-!
### Facts about tag names and markers
-/

theorem nameChar_spec {c : Char} (h : nameChar c = true) :
    c ≠ '<' ∧ c ≠ '/' ∧ c ≠ '>' := by
  refine ⟨?_, ?_, ?_⟩ <;> rintro rfl <;> exact absurd h (by decide)

theorem isTagName_spec {tag : List Char} (h : isTagName tag = true) :
    tag ≠ [] ∧ ∀ c ∈ tag, c ≠ '<' ∧ c ≠ '/' ∧ c ≠ '>' := by
  rw [isTagName, Bool.and_eq_true, List.all_eq_true] at h
  refine ⟨?_, fun c hc => nameChar_spec (h.2 c hc)⟩
  cases tag <;> simp_all

/-- `<` occurs in the opening marker only as its head character. -/
theorem openTag_uniqueHead {tag : List Char} (h : isTagName tag = true) :
    '<' ∉ tag ++ ['>'] := by
  obtain ⟨-, hchars⟩ := isTagName_spec h
  intro hmem
  rcases List.mem_append.mp hmem with hin | hin
  · exact (hchars _ hin).1 rfl
  · simp at hin

/-- `<` occurs in the closing marker only as its head character. -/
theorem closeTag_uniqueHead {tag : List Char} (h : isTagName tag = true) :
    '<' ∉ '/' :: (tag ++ ['>']) := by
  intro hmem
  rcases List.mem_cons.mp hmem with h1 | h1
  · exact absurd h1 (by decide)
  · exact openTag_uniqueHead h h1

/-- Prepending the opening marker to a text free of the closing marker cannot
create an occurrence of the closing marker. -/
theorem not_containsSub_openTag_append {tag text : List Char}
    (htag : isTagName tag = true)
    (h : containsSub text (closeTag tag) = false) :
    containsSub (openTag tag ++ text) (closeTag tag) = false := by
  obtain ⟨hne, hchars⟩ := isTagName_spec htag
  by_contra hcon
  rw [Bool.not_eq_false] at hcon
  rcases containsSub_append_split hcon with hy | ⟨x₁, x₂, hx, hxne, hpre⟩
  · simp [hy] at h
  · -- an occurrence of the closing marker starting inside the opening marker
    rcases isPrefixOf_eq_true_iff.mp hpre with ⟨w, hw⟩
    cases x₁ with
    | nil =>
      -- it would start at the very `<` of the opening marker
      simp only [List.nil_append] at hx
      rw [← hx, openTag, closeTag] at hw
      obtain ⟨-, hw1⟩ := List.cons.inj hw
      cases tag with
      | nil => exact hne rfl
      | cons t0 tag' =>
        simp only [List.append_eq, List.cons_append] at hw1
        obtain ⟨ht0, -⟩ := List.cons.inj hw1
        exact (hchars t0 (List.mem_cons_self t0 tag')).2.1 ht0
    | cons d x₁' =>
      -- it would start strictly inside `tag ++ ['>']`, at a non-`<` character
      rw [openTag] at hx
      obtain ⟨-, hx1⟩ := List.cons.inj hx
      cases x₂ with
      | nil => exact hxne rfl
      | cons z x₂' =>
        have hz : z ∈ tag ++ ['>'] := by
          rw [List.append_eq] at hx1
          rw [hx1]
          exact List.mem_append_right x₁' (List.mem_cons_self z x₂')
        rw [List.cons_append, closeTag] at hw
        obtain ⟨hz1, -⟩ := List.cons.inj hw.symm
        rcases List.mem_append.mp hz with hin | hin
        · exact (hchars z hin).1 hz1.symm
        · simp only [List.mem_singleton] at hin
          rw [hin] at hz1
          exact absurd hz1 (by decide)

/-!
### Step equations for `findMatches`
-/

theorem findAllGo_congr {opn cls : List Char} (ho : opn ≠ []) (hc : cls ≠ []) :
    ∀ f₁ f₂ s, s.length < f₁ → s.length < f₂ →
      findAllGo opn cls f₁ s = findAllGo opn cls f₂ s := by
  intro f₁
  induction f₁ with
  | zero => intro f₂ s h1; exact absurd h1 (by omega)
  | succ f₁' ih =>
    intro f₂ s h1 h2
    cases f₂ with
    | zero => exact absurd h2 (by omega)
    | succ f₂' =>
      cases hsp : splitFirst opn s with
      | none => simp only [findAllGo, hsp]
      | some pr1 =>
        obtain ⟨pre, rest⟩ := pr1
        cases hsp2 : splitFirst cls rest with
        | none => simp only [findAllGo, hsp, hsp2]
        | some pr2 =>
          obtain ⟨content, rest2⟩ := pr2
          have e1 := splitFirst_eq_append hsp
          have e2 := splitFirst_eq_append hsp2
          have hlen : rest2.length < s.length := by
            have lo : 0 < opn.length := List.length_pos.mpr ho
            have lc : 0 < cls.length := List.length_pos.mpr hc
            rw [e1, e2]
            simp only [List.length_append]
            omega
          simp only [findAllGo, hsp, hsp2]
          rw [ih f₂' rest2 (by omega) (by omega)]

theorem openTag_ne_nil {tag : List Char} : openTag tag ≠ [] := by
  simp [openTag]

theorem closeTag_ne_nil {tag : List Char} : closeTag tag ≠ [] := by
  simp [closeTag]

/-- `findMatches` when the opening marker does not occur: no matches. -/
theorem findMatches_of_no_open {tag s : List Char}
    (h : splitFirst (openTag tag) s = none) : findMatches tag s = [] := by
  rw [findMatches]
  simp only [findAllGo, h]

/-- `findMatches` when no closing marker follows the first opening marker:
no matches. -/
theorem findMatches_of_no_close {tag s pre rest : List Char}
    (h1 : splitFirst (openTag tag) s = some (pre, rest))
    (h2 : splitFirst (closeTag tag) rest = none) : findMatches tag s = [] := by
  rw [findMatches]
  simp only [findAllGo, h1, h2]

/-- The step equation of `findMatches`: capture the text between the first
opening marker and the first closing marker after it, then continue after the
closing marker. -/
theorem findMatches_cons {tag s pre rest content rest2 : List Char}
    (h1 : splitFirst (openTag tag) s = some (pre, rest))
    (h2 : splitFirst (closeTag tag) rest = some (content, rest2)) :
    findMatches tag s = content :: findMatches tag rest2 := by
  have e1 := splitFirst_eq_append h1
  have e2 := splitFirst_eq_append h2
  have lo : 0 < (openTag tag).length := List.length_pos.mpr openTag_ne_nil
  have lc : 0 < (closeTag tag).length := List.length_pos.mpr closeTag_ne_nil
  have hlen : rest2.length < s.length := by
    rw [e1, e2]; simp only [List.length_append]; omega
  rw [findMatches]
  simp only [findAllGo, h1, h2]
  rw [findMatches]
  rw [findAllGo_congr openTag_ne_nil closeTag_ne_nil s.length
    (rest2.length + 1) rest2 (by omega) (by omega)]

theorem findMatches_nil {tag : List Char} : findMatches tag [] = [] :=
  findMatches_of_no_open (splitFirst_eq_none (by simp [containsSub, openTag]))

/-- A text with at least one syntactic match contains both markers. -/
theorem containsSub_of_findMatches_ne_nil {tag s : List Char}
    (h : findMatches tag s ≠ []) :
    containsSub s (openTag tag) = true ∧
      containsSub s (closeTag tag) = true := by
  cases hsp : splitFirst (openTag tag) s with
  | none => exact absurd (findMatches_of_no_open hsp) h
  | some pr1 =>
    obtain ⟨pre, rest⟩ := pr1
    cases hsp2 : splitFirst (closeTag tag) rest with
    | none => exact absurd (findMatches_of_no_close hsp hsp2) h
    | some pr2 =>
      obtain ⟨content, rest2⟩ := pr2
      have e1 := splitFirst_eq_append hsp
      have e2 := splitFirst_eq_append hsp2
      constructor
      · exact containsSub_of_eq e1
      · refine containsSub_of_eq (s := s)
          (a := pre ++ openTag tag ++ content) (b := rest2) ?_
        rw [e1, e2]; simp

/-!
### Behaviour of `synthesize` and of the final filter
-/

theorem synthesize_of_contains {text tag : List Char}
    (h1 : containsSub text (openTag tag) = true)
    (h2 : containsSub text (closeTag tag) = true) :
    synthesize text tag = text := by
  simp [synthesize, h1, h2]

theorem synthesize_no_open_no_close {text tag : List Char}
    (htag : isTagName tag = true)
    (h1 : containsSub text (openTag tag) = false)
    (h2 : containsSub text (closeTag tag) = false) :
    synthesize text tag = openTag tag ++ text ++ closeTag tag := by
  simp [synthesize, h1, not_containsSub_openTag_append htag h2,
    List.append_assoc]

theorem synthesize_open_no_close {text tag : List Char}
    (h1 : containsSub text (openTag tag) = true)
    (h2 : containsSub text (closeTag tag) = false) :
    synthesize text tag = text ++ closeTag tag := by
  simp [synthesize, h1, h2]

theorem synthesize_no_open_close {text tag : List Char}
    (h1 : containsSub text (openTag tag) = false)
    (h2 : containsSub text (closeTag tag) = true) :
    synthesize text tag = openTag tag ++ text := by
  simp [synthesize, h1, containsSub_append_left (x := openTag tag) h2]

theorem getLast?_filter_single (m : List Char) :
    (([m]).filter (fun x => !x.isEmpty)).getLast? =
      if m.isEmpty then none else some m := by
  cases m <;> simp [List.filter]

/-!
### The claims about `extract_tag_content`
-/

/-- C1.  For every text that contains neither the opening marker `<tag>` nor
the closing marker `</tag>` (`tag` a non-empty name with no pattern-special
characters), `extract_tag_content(text, tag)` returns the entire text when
the text is non-empty, and `None` when the text is empty. -/
theorem extract_tag_content_no_markers (tag text : List Char)
    (htag : isTagName tag = true)
    (hopen : containsSub text (openTag tag) = false)
    (hclose : containsSub text (closeTag tag) = false) :
    extract_tag_content text tag = if text.isEmpty then none else some text := by
  have hsynth := synthesize_no_open_no_close htag hopen hclose
  have hsp1 : splitFirst (openTag tag) (openTag tag ++ text ++ closeTag tag) =
      some ([], text ++ closeTag tag) := by
    rw [List.append_assoc]
    exact splitFirst_append_self
  have hsp2 : splitFirst (closeTag tag) (text ++ closeTag tag) =
      some (text, []) := by
    have hcu := closeTag_uniqueHead htag
    have h0 : containsSub text ('<' :: ('/' :: (tag ++ ['>']))) = false := by
      rw [closeTag] at hclose
      exact hclose
    have := splitFirst_clean (b := []) hcu h0
    rw [List.append_nil] at this
    rw [closeTag]
    exact this
  have hm : findMatches tag (openTag tag ++ text ++ closeTag tag) = [text] := by
    rw [findMatches_cons hsp1 hsp2, findMatches_nil]
  rw [extract_tag_content, hsynth, hm]
  exact getLast?_filter_single text

/-- Witness for C1 at the spec's example
`extract_tag_content("no tags here", "foo") == "no tags here"`. -/
theorem extract_tag_content_no_markers_witness :
    isTagName "foo".toList = true ∧
      containsSub "no tags here".toList (openTag "foo".toList) = false ∧
      containsSub "no tags here".toList (closeTag "foo".toList) = false ∧
      extract_tag_content "no tags here".toList "foo".toList =
        some "no tags here".toList := by
  refine ⟨by decide, by decide, by decide, ?_⟩
  rw [extract_tag_content_no_markers "foo".toList "no tags here".toList
    (by decide) (by decide) (by decide)]
  decide

/-- C2.  For every text with two or more syntactic `<tag>...</tag>` matches
whose captured content is non-empty, `extract_tag_content` returns the
content of the last such match (no markers are synthesized, and the result is
never `None` here). -/
theorem extract_tag_content_last_match (tag text : List Char)
    (h : 2 ≤ ((findMatches tag text).filter (fun m => !m.isEmpty)).length) :
    extract_tag_content text tag =
        ((findMatches tag text).filter (fun m => !m.isEmpty)).getLast? ∧
      ((findMatches tag text).filter (fun m => !m.isEmpty)).getLast? ≠
        none := by
  have hne : findMatches tag text ≠ [] := by
    intro hnil
    rw [hnil] at h
    simp at h
  obtain ⟨ho, hc⟩ := containsSub_of_findMatches_ne_nil hne
  refine ⟨?_, ?_⟩
  · rw [extract_tag_content, synthesize_of_contains ho hc]
  · rw [Ne, List.getLast?_eq_none_iff]
    intro hnil
    rw [hnil] at h
    simp at h

/-- Witness for C2 at the spec's example
`extract_tag_content("<foo>first</foo><foo>second</foo>", "foo") ==
"second"`. -/
theorem extract_tag_content_last_match_witness :
    2 ≤ ((findMatches "foo".toList
        "<foo>first</foo><foo>second</foo>".toList).filter
          (fun m => !m.isEmpty)).length ∧
      extract_tag_content "<foo>first</foo><foo>second</foo>".toList
        "foo".toList = some "second".toList := by
  refine ⟨by decide, ?_⟩
  rw [(extract_tag_content_last_match "foo".toList
    "<foo>first</foo><foo>second</foo>".toList (by decide)).1]
  decide

/-- C3.  Matches with empty captured content are discarded: when every
syntactic match of the (marker-synthesized) text is empty, the result is
`None`. -/
theorem extract_tag_content_empty_filtered (tag text : List Char)
    (h : ∀ m ∈ findMatches tag (synthesize text tag), m = []) :
    extract_tag_content text tag = none := by
  rw [extract_tag_content, List.getLast?_eq_none_iff]
  rw [List.filter_eq_nil_iff]
  intro m hm
  rw [h m hm]
  simp

/-- Witness for C3 at the spec's example
`extract_tag_content("<foo></foo>", "foo") is None`. -/
theorem extract_tag_content_empty_filtered_witness :
    (∀ m ∈ findMatches "foo".toList
        (synthesize "<foo></foo>".toList "foo".toList), m = []) ∧
      extract_tag_content "<foo></foo>".toList "foo".toList = none := by
  refine ⟨by decide, ?_⟩
  exact extract_tag_content_empty_filtered "foo".toList
    "<foo></foo>".toList (by decide)

/-- C4.  When the text contains the opening marker but not the closing
marker, `extract_tag_content` appends a closing marker to the end of the
text before matching. -/
theorem extract_tag_content_appends_close (tag text : List Char)
    (h1 : containsSub text (openTag tag) = true)
    (h2 : containsSub text (closeTag tag) = false) :
    extract_tag_content text tag =
      ((findMatches tag (text ++ closeTag tag)).filter
        (fun m => !m.isEmpty)).getLast? := by
  rw [extract_tag_content, synthesize_open_no_close h1 h2]

/-- Witness for C4 at the spec's example
`extract_tag_content("<foo>only-open", "foo") == "only-open"`. -/
theorem extract_tag_content_appends_close_witness :
    containsSub "<foo>only-open".toList (openTag "foo".toList) = true ∧
      containsSub "<foo>only-open".toList (closeTag "foo".toList) = false ∧
      extract_tag_content "<foo>only-open".toList "foo".toList =
        some "only-open".toList := by
  refine ⟨by decide, by decide, ?_⟩
  rw [extract_tag_content_appends_close "foo".toList "<foo>only-open".toList
    (by decide) (by decide)]
  decide

/-- C9.  When the text already contains a closing marker, no closing marker
is synthesized, so a trailing `<tag>` section that is never closed is not a
match: for a complete non-empty pair followed by an unclosed opening marker
and trailing content, the result is the complete pair's content. -/
theorem extract_tag_content_ignores_unclosed (tag a b : List Char)
    (htag : isTagName tag = true)
    (ha : containsSub a (closeTag tag) = false)
    (hb : containsSub b (closeTag tag) = false)
    (hane : a ≠ []) :
    extract_tag_content
      (openTag tag ++ a ++ closeTag tag ++ openTag tag ++ b) tag = some a := by
  have ho : containsSub
      (openTag tag ++ a ++ closeTag tag ++ openTag tag ++ b)
      (openTag tag) = true :=
    containsSub_of_eq
      (show _ = [] ++ openTag tag ++ (a ++ closeTag tag ++ openTag tag ++ b)
        by simp)
  have hc : containsSub
      (openTag tag ++ a ++ closeTag tag ++ openTag tag ++ b)
      (closeTag tag) = true :=
    containsSub_of_eq
      (show _ = (openTag tag ++ a) ++ closeTag tag ++ (openTag tag ++ b)
        by simp)
  have hsp1 : splitFirst (openTag tag)
      (openTag tag ++ a ++ closeTag tag ++ openTag tag ++ b) =
      some ([], a ++ (closeTag tag ++ (openTag tag ++ b))) := by
    have := @splitFirst_append_self (openTag tag)
      (a ++ (closeTag tag ++ (openTag tag ++ b)))
    rw [show openTag tag ++ (a ++ (closeTag tag ++ (openTag tag ++ b))) =
      openTag tag ++ a ++ closeTag tag ++ openTag tag ++ b by simp] at this
    exact this
  have hsp2 : splitFirst (closeTag tag)
      (a ++ (closeTag tag ++ (openTag tag ++ b))) =
      some (a, openTag tag ++ b) := by
    have hcu := closeTag_uniqueHead htag
    have h0 : containsSub a ('<' :: ('/' :: (tag ++ ['>']))) = false := by
      rw [closeTag] at ha
      exact ha
    have := splitFirst_clean (b := openTag tag ++ b) hcu h0
    rw [List.append_assoc] at this
    rw [closeTag]
    exact this
  have hsp3 : splitFirst (openTag tag) (openTag tag ++ b) = some ([], b) :=
    splitFirst_append_self
  have hsp4 : splitFirst (closeTag tag) b = none := splitFirst_eq_none hb
  have hm : findMatches tag
      (openTag tag ++ a ++ closeTag tag ++ openTag tag ++ b) = [a] := by
    rw [findMatches_cons hsp1 hsp2, findMatches_of_no_close hsp3 hsp4]
  rw [extract_tag_content, synthesize_of_contains ho hc, hm,
    getLast?_filter_single, if_neg (by simp [hane])]

/-- Witness for C9 at the input `"<foo>a</foo><foo>b"`, whose value is
`"a"`, not `"b"`. -/
theorem extract_tag_content_ignores_unclosed_witness :
    isTagName "foo".toList = true ∧
      containsSub "a".toList (closeTag "foo".toList) = false ∧
      containsSub "b".toList (closeTag "foo".toList) = false ∧
      "a".toList ≠ [] ∧
      extract_tag_content "<foo>a</foo><foo>b".toList "foo".toList =
        some "a".toList := by
  refine ⟨by decide, by decide, by decide, by decide, ?_⟩
  have h := extract_tag_content_ignores_unclosed "foo".toList "a".toList
    "b".toList (by decide) (by decide) (by decide) (by decide)
  rw [show openTag "foo".toList ++ "a".toList ++ closeTag "foo".toList ++
      openTag "foo".toList ++ "b".toList = "<foo>a</foo><foo>b".toList
    by decide] at h
  exact h

/-- C10.  When the text contains the closing marker but not the opening
marker, only the opening marker is prepended: the result is the text's
prefix before the first closing marker when that prefix is non-empty, and
`None` when it is empty. -/
theorem extract_tag_content_prepends_open (tag text pre post : List Char)
    (hopen : containsSub text (openTag tag) = false)
    (hsplit : splitFirst (closeTag tag) text = some (pre, post)) :
    extract_tag_content text tag = if pre.isEmpty then none else some pre := by
  have e := splitFirst_eq_append hsplit
  have hc : containsSub text (closeTag tag) = true := containsSub_of_eq e
  have hpost : splitFirst (openTag tag) post = none := by
    apply splitFirst_eq_none
    by_contra hcon
    rw [Bool.not_eq_false] at hcon
    have : containsSub text (openTag tag) = true := by
      rw [e]
      exact containsSub_append_left hcon
    rw [this] at hopen
    exact absurd hopen (by simp)
  have hsp1 : splitFirst (openTag tag) (openTag tag ++ text) =
      some ([], text) := splitFirst_append_self
  have hm : findMatches tag (openTag tag ++ text) = [pre] := by
    rw [findMatches_cons hsp1 hsplit, findMatches_of_no_open hpost]
  rw [extract_tag_content, synthesize_no_open_close hopen hc, hm,
    getLast?_filter_single]

/-- Witness for C10 at the input `"x</foo>y"`, whose value is `"x"` (the
text after the closing marker is discarded). -/
theorem extract_tag_content_prepends_open_witness :
    containsSub "x</foo>y".toList (openTag "foo".toList) = false ∧
      splitFirst (closeTag "foo".toList) "x</foo>y".toList =
        some ("x".toList, "y".toList) ∧
      extract_tag_content "x</foo>y".toList "foo".toList =
        some "x".toList := by
  refine ⟨by decide, by decide, ?_⟩
  rw [extract_tag_content_prepends_open "foo".toList "x</foo>y".toList
    "x".toList "y".toList (by decide) (by decide)]
  decide

/-!
### The claims about `deserialize`
-/

/-- C5.  `deserialize(value, schema)` fails with a `ValidationError` exactly
when `value` is not valid JSON or the parsed JSON fails validation against
the schema, and succeeds otherwise; in particular `'not json'` fails for
every schema, and `'{}'` fails against a schema requiring field `a`. -/
theorem deserialize_fails_iff_invalid :
    (∀ (schema : JSchema) (value : List Char),
        (∃ e, (deserialize value (model_validate_json schema)).1 =
            .error e) ↔
          (parseJson value = none ∨
            ∃ j, parseJson value = some j ∧ validate schema j = false)) ∧
      (∀ schema : JSchema, ∃ e,
        (deserialize notJsonInput (model_validate_json schema)).1 =
          .error e) ∧
      (∃ e, (deserialize emptyObjInput
          (model_validate_json schemaRequiringA)).1 = .error e) := by
  refine ⟨fun schema value => ?_, fun schema => ?_, ?_⟩
  · rw [deserialize, model_validate_json]
    cases hp : parseJson value with
    | none => simp
    | some j =>
      by_cases hv : validate schema j = true
      · simp [hv]
      · have hv' : validate schema j = false := by simpa using hv
        simp [hv']
  · exact ⟨⟨"value is not valid JSON".toList⟩, rfl⟩
  · exact ⟨⟨"JSON does not conform to the schema".toList⟩, rfl⟩

/-- C6.  On every `deserialize` failure, a diagnostic line naming the error
is printed and the very same error is re-raised; on success nothing is
printed. -/
theorem deserialize_logs_and_reraises {α : Type}
    (object_type : List Char → Except ValidationError α) (value : List Char) :
    (∀ err, object_type value = .error err →
        deserialize value object_type = (.error err, [validationMsg err])) ∧
      (∀ v, object_type value = .ok v →
        deserialize value object_type = (.ok v, [])) := by
  constructor
  · intro err h
    rw [deserialize, h]
  · intro v h
    rw [deserialize, h]

/-- Witness for C6: the failing run on `'{}'` against the schema requiring
field `a` prints exactly one diagnostic naming the error and re-raises it;
the successful run on `'{"a": 1}'` prints nothing. -/
theorem deserialize_logs_and_reraises_witness :
    model_validate_json schemaRequiringA emptyObjInput =
        .error ⟨"JSON does not conform to the schema".toList⟩ ∧
      deserialize emptyObjInput (model_validate_json schemaRequiringA) =
        (.error ⟨"JSON does not conform to the schema".toList⟩,
          [validationMsg ⟨"JSON does not conform to the schema".toList⟩]) ∧
      deserialize intFieldInput (model_validate_json schemaRequiringA) =
        (.ok (Json.obj [(['a'], Json.num 1)]), []) :=
  ⟨rfl,
    (deserialize_logs_and_reraises
      (model_validate_json schemaRequiringA) emptyObjInput).1 _ rfl,
    (deserialize_logs_and_reraises
      (model_validate_json schemaRequiringA) intFieldInput).2 _ rfl⟩

/-- C7.  When `value` is a JSON document conforming to the schema,
`deserialize` returns the parsed, validated object (and prints nothing). -/
theorem deserialize_returns_validated_object (schema : JSchema)
    (value : List Char) (j : Json)
    (hp : parseJson value = some j) (hv : validate schema j = true) :
    deserialize value (model_validate_json schema) = (.ok j, []) := by
  rw [deserialize, model_validate_json, hp]
  simp only [hv, if_true]

/-- Witness for C7 at the spec's example: `deserialize('{"a": 1}',
SchemaWithIntField "a")` returns an object whose field `a` equals `1`. -/
theorem deserialize_returns_validated_object_witness :
    parseJson intFieldInput = some (Json.obj [(['a'], Json.num 1)]) ∧
      validate schemaRequiringA (Json.obj [(['a'], Json.num 1)]) = true ∧
      deserialize intFieldInput (model_validate_json schemaRequiringA) =
        (.ok (Json.obj [(['a'], Json.num 1)]), []) ∧
      lookupField ['a'] [(['a'], Json.num 1)] = some (Json.num 1) :=
  ⟨rfl, rfl,
    deserialize_returns_validated_object schemaRequiringA intFieldInput
      (Json.obj [(['a'], Json.num 1)]) rfl rfl,
    rfl⟩

/-- C8.  Both functions are deterministic: running either twice on the same
input (the print log threading through the pair of runs) yields identical
outputs — the embedding has no mutable state besides the explicit log. -/
theorem helpers_deterministic :
    (∀ text tag : List Char,
        (extractTwice text tag).1 = (extractTwice text tag).2) ∧
      (∀ (α : Type) (value : List Char)
          (object_type : List Char → Except ValidationError α),
        (deserializeTwice value object_type).1.1 =
          (deserializeTwice value object_type).1.2) :=
  ⟨fun _ _ => rfl, fun _ _ _ => rfl⟩

end AgentUtils
